import Mathlib

/-!
# Verification of the VoxFlow diarization pipeline

Shallow embedding of `src/diarizer_service/diarize.py` and proofs of the
spec claims about it.

Modelling conventions:
* Python floats (audio samples, second-valued timestamps, `frame_sec`,
  `hop_sec`) are modelled as exact rationals `ℚ`.  Every constant the
  script actually uses (1.5, 0.75, 16000) is exactly representable in
  binary floating point, so this idealisation agrees with the source on
  the inputs the claims are about.
* `int(x)` on a float is truncation toward zero; `round(x)` and
  `round(x, 3)` use round-half-to-even.  Both are modelled exactly below
  (`pyInt`, `roundHalfEven`, `round3`).
* numpy arrays become lists; an `(N, D)` embedding matrix becomes
  `List (List ℚ)`.
* A raised Python exception is modelled as `Except.error` / `Option.none`.
* The pretrained SpeechBrain encoder is an external collaborator; it is
  modelled as an opaque-to-the-core parameter `embed : List ℚ → List ℚ`
  (the spec's `embed(samples) -> vector[D]` capability).
-/

/-- Python `int(q)` on a real value: truncation toward zero
(`frame_len = int(frame_sec * sr)` in `slice_frames`). -/
def pyInt (q : ℚ) : ℤ :=
  if 0 ≤ q then ⌊q⌋ else -⌊-q⌋

theorem pyInt_intCast (n : ℤ) : pyInt (n : ℚ) = n := by
  unfold pyInt
  rcases le_or_lt 0 n with h | h
  · rw [if_pos (by exact_mod_cast h), Int.floor_intCast]
  · rw [if_neg (not_le.mpr (by exact_mod_cast h))]
    rw [show (-(n : ℚ)) = ((-n : ℤ) : ℚ) by push_cast; ring, Int.floor_intCast]
    ring

/-- Python `round(x)`: round half to even, as an integer. -/
def roundHalfEven (x : ℚ) : ℤ :=
  let f := ⌊x⌋
  if x - f < 1/2 then f
  else if 1/2 < x - f then f + 1
  else if f % 2 = 0 then f else f + 1

/-- Python `round(x, 3)`: round to 3 decimal places, half to even
(used for the emitted segment boundaries). -/
def round3 (q : ℚ) : ℚ :=
  (roundHalfEven (q * 1000) : ℚ) / 1000

/-- `q` is an exact multiple of one millisecond. -/
def milli (q : ℚ) : Prop := (q * 1000).den = 1

instance (q : ℚ) : Decidable (milli q) := by unfold milli; infer_instance

theorem roundHalfEven_intCast (n : ℤ) : roundHalfEven (n : ℚ) = n := by
  unfold roundHalfEven
  rw [Int.floor_intCast]
  norm_num

theorem round3_of_milli {q : ℚ} (h : milli q) : round3 q = q := by
  unfold milli at h
  have hq : ((q * 1000).num : ℚ) = q * 1000 := by
    rw [← Rat.den_eq_one_iff]; exact h
  unfold round3
  rw [show q * 1000 = ((q * 1000).num : ℚ) from hq.symm, roundHalfEven_intCast, hq]
  field_simp

theorem milli_round3 (q : ℚ) : milli (round3 q) := by
  unfold milli round3
  rw [div_mul_cancel₀ _ (by norm_num : (1000 : ℚ) ≠ 0)]
  exact Rat.intCast_den _

/-! ## Audio loading (`load_audio_mono_16k`, lines 19–29)

`soundfile.read` returns either a 1-D array (mono) or a 2-D
`(samples × channels)` array; this decoded result is the input of the
model.  The function averages a 2-D array over channels, raises
`ValueError` when the sample rate differs from 16000, and otherwise
returns the (float) audio and the rate.  (The `astype(np.float32)`
conversion is the identity in this exact-rational model.) -/

/-- Result of `soundfile.read`: either mono samples or a 2-D
`(samples × channels)` matrix. -/
inductive RawAudio where
  | mono (xs : List ℚ)
  | multi (xss : List (List ℚ))

/-- `np.mean(row)` over the channels of one sample row. -/
def rowMean (row : List ℚ) : ℚ := row.sum / (row.length : ℚ)

/-- `load_audio_mono_16k`: channel-average if the array is 2-D, then fail
unless the sample rate is exactly 16000. -/
def load_audio_mono_16k (a : RawAudio) (sr : ℕ) : Except String (List ℚ × ℕ) :=
  let audio : List ℚ :=
    match a with
    | .mono xs => xs
    | .multi xss => xss.map rowMean
  if sr ≠ 16000 then
    .error ("Expected 16kHz WAV, got sr=" ++ toString sr ++ ". Please resample to 16000Hz.")
  else
    .ok (audio, sr)

/-! ## Frame sampler (`slice_frames`, lines 32–48)

`range(0, stop, step)` for a positive `step` yields
`0, step, 2*step, …` while the value is `< stop`; constructing a range
with `step == 0` raises `ValueError` (and `slice_frames` reaches that
constructor whenever the early length return does not fire).  A negative
`step` with a positive `stop` yields the empty range. -/

/-- Python `range(0, stop, step)` as a list of integers.  Empty when
`step ≤ 0` (the `step = 0` exception case is handled by the caller,
`slice_frames`, before this is used). -/
def pyRange (stop step : ℤ) : List ℤ :=
  if 0 < step then
    (List.range ((stop.toNat + step.toNat - 1) / step.toNat)).map fun (i : ℕ) => (i : ℤ) * step
  else []

/-- `slice_frames(audio, sr, frame_sec, hop_sec)`.  Returns `none` for the
`ValueError` raised by `range(..., 0)` when the computed hop length is
zero and the audio is long enough to reach the loop; otherwise
`some (frames, times)` exactly as in the source. -/
def slice_frames (audio : List ℚ) (sr : ℕ) (frame_sec hop_sec : ℚ) :
    Option (List (List ℚ) × List (ℚ × ℚ)) :=
  let frame_len := pyInt (frame_sec * (sr : ℚ))
  let hop_len := pyInt (hop_sec * (sr : ℚ))
  if (audio.length : ℤ) < frame_len then
    some ([], [])
  else if hop_len = 0 then
    none
  else
    let starts := pyRange ((audio.length : ℤ) - frame_len + 1) hop_len
    some (starts.map fun (s : ℤ) => (audio.drop s.toNat).take frame_len.toNat,
          starts.map fun (s : ℤ) =>
            ((s : ℚ) / (sr : ℚ), ((s + frame_len : ℤ) : ℚ) / (sr : ℚ)))

/-- Characterization of `pyRange` for a positive step: it emits the
multiples `0, step, 2*step, …` strictly below `stop`, in order, and stops
as soon as the next multiple reaches `stop`. -/
theorem pyRange_spec (stop step : ℤ) (hstep : 0 < step) :
    ∃ N : ℕ, pyRange stop step = (List.range N).map (fun (i : ℕ) => (i : ℤ) * step) ∧
      (∀ k : ℕ, k < N → (k : ℤ) * step < stop) ∧ stop ≤ (N : ℤ) * step := by
  have hb : 0 < step.toNat := by omega
  have hbz : (step.toNat : ℤ) = step := Int.toNat_of_nonneg hstep.le
  refine ⟨(stop.toNat + step.toNat - 1) / step.toNat, ?_, ?_, ?_⟩
  · unfold pyRange; rw [if_pos hstep]
  · intro k hk
    rcases le_or_lt stop 0 with hs | hs
    · exfalso
      have h0 : stop.toNat = 0 := Int.toNat_of_nonpos hs
      rw [h0] at hk
      have : (0 + step.toNat - 1) / step.toNat = 0 := Nat.div_eq_of_lt (by omega)
      omega
    · have ha : (stop.toNat : ℤ) = stop := Int.toNat_of_nonneg hs.le
      set a := stop.toNat with hadef
      set b := step.toNat with hbdef
      have hkb : k * b < a := by
        have h3 : k * b + b ≤ a + b - 1 := by
          calc k * b + b = (k + 1) * b := by ring
            _ ≤ ((a + b - 1) / b) * b := Nat.mul_le_mul_right b hk
            _ ≤ a + b - 1 := Nat.div_mul_le_self _ _
        omega
      calc (k : ℤ) * step = ((k * b : ℕ) : ℤ) := by push_cast [hbz]; ring
        _ < ((a : ℕ) : ℤ) := by exact_mod_cast hkb
        _ = stop := ha
  · rcases le_or_lt stop 0 with hs | hs
    · calc stop ≤ 0 := hs
        _ ≤ _ := by positivity
    · have ha : (stop.toNat : ℤ) = stop := Int.toNat_of_nonneg hs.le
      set a := stop.toNat with hadef
      set b := step.toNat with hbdef
      have hdm : b * ((a + b - 1) / b) + (a + b - 1) % b = a + b - 1 :=
        Nat.div_add_mod _ _
      have hrlt : (a + b - 1) % b < b := Nat.mod_lt _ hb
      have hab : a ≤ ((a + b - 1) / b) * b := by
        rw [Nat.mul_comm]
        omega
      calc stop = ((a : ℕ) : ℤ) := ha.symm
        _ ≤ ((((a + b - 1) / b) * b : ℕ) : ℤ) := by exact_mod_cast hab
        _ = _ := by push_cast [hbz]; ring

/-! ## Segment merger (`frames_to_segments`, lines 51–77)

The source scans `labels`/`times` in parallel with a running
`(cur_label, seg_start, seg_end)` accumulator and emits a segment each
time the label changes (plus the final accumulator).  Boundaries are
emitted through `round(x, 3)`.  `str(cur_label)` turns the numpy label
into a string; labels are kept at an abstract type `L` with decidable
equality here, which preserves the equality tests the loop performs.
On empty input the source raises `IndexError` at `labels[0]`; the
pipeline only calls it with at least 2 frames, and no claim concerns the
empty case, so the model returns `[]` there. -/

/-- An output segment: `{"start": …, "end": …, "label": …}` (the `end`
field is called `stop` because `end` is reserved in Lean). -/
structure Segment (L : Type) where
  start : ℚ
  stop : ℚ
  label : L
deriving DecidableEq

/-- The merging loop of `frames_to_segments` (lines 58–75): `cur`/`s`/`e`
are the running `cur_label`/`seg_start`/`seg_end`, and the list holds the
remaining `(labels[i], times[i])` pairs. -/
def mergeLoop {L : Type} [DecidableEq L] (cur : L) (s e : ℚ) :
    List (L × ℚ × ℚ) → List (Segment L)
  | [] => [⟨round3 s, round3 e, cur⟩]
  | (l, t1, t2) :: rest =>
    if l = cur then mergeLoop cur s t2 rest
    else ⟨round3 s, round3 e, cur⟩ :: mergeLoop l t1 t2 rest

/-- `frames_to_segments(labels, times)`: initialise the accumulator from
index 0 and run the merging loop over the remaining indices. -/
def frames_to_segments {L : Type} [DecidableEq L]
    (labels : List L) (times : List (ℚ × ℚ)) : List (Segment L) :=
  match labels, times with
  | l :: ls, t :: ts => mergeLoop l t.1 t.2 (ls.zip ts)
  | _, _ => []

/-- `x` lies in some emitted segment's `[start, stop)` range. -/
def SegsCover {L : Type} (segs : List (Segment L)) (x : ℚ) : Prop :=
  ∃ g ∈ segs, g.start ≤ x ∧ x < g.stop

/-- `x` lies in some frame's `[start, end)` time range. -/
def TimesCover (ts : List (ℚ × ℚ)) (x : ℚ) : Prop :=
  ∃ t ∈ ts, t.1 ≤ x ∧ x < t.2

/-- Well-formedness of a frame sequence relative to a running segment
`[s, e]`: starts are non-decreasing, ends are non-decreasing, and each
frame begins no later than the current segment ends (true of the
sampler's output whenever the hop length is at most the frame length). -/
def Aligned {L : Type} : ℚ → ℚ → List (L × ℚ × ℚ) → Prop
  | s, e, [] => s ≤ e
  | s, e, (_, t1, t2) :: rest => s ≤ e ∧ s ≤ t1 ∧ t1 ≤ e ∧ e ≤ t2 ∧ Aligned t1 t2 rest

theorem aligned_extend {L : Type} {t1 t2 s : ℚ} {rest : List (L × ℚ × ℚ)}
    (h : Aligned t1 t2 rest) (hs : s ≤ t1) : Aligned s t2 rest := by
  cases rest with
  | nil =>
    simp only [Aligned] at h ⊢
    exact hs.trans h
  | cons p r =>
    obtain ⟨q, u1, u2⟩ := p
    simp only [Aligned] at h ⊢
    exact ⟨hs.trans h.1, hs.trans h.2.1, h.2.2.1, h.2.2.2.1, h.2.2.2.2⟩

theorem segsCover_cons {L : Type} (g : Segment L) (gs : List (Segment L)) (x : ℚ) :
    SegsCover (g :: gs) x ↔ (g.start ≤ x ∧ x < g.stop) ∨ SegsCover gs x := by
  simp [SegsCover, List.mem_cons, or_and_right, exists_or]

theorem timesCover_cons (t : ℚ × ℚ) (ts : List (ℚ × ℚ)) (x : ℚ) :
    TimesCover (t :: ts) x ↔ (t.1 ≤ x ∧ x < t.2) ∨ TimesCover ts x := by
  simp [TimesCover, List.mem_cons, or_and_right, exists_or]

/-- The loop always emits a first segment starting at the accumulator's
start with the accumulator's label. -/
theorem mergeLoop_cons {L : Type} [DecidableEq L] (cur : L) (s e : ℚ)
    (rest : List (L × ℚ × ℚ)) :
    ∃ e2 tl, mergeLoop cur s e rest = ⟨round3 s, e2, cur⟩ :: tl := by
  induction rest generalizing cur s e with
  | nil => exact ⟨round3 e, [], rfl⟩
  | cons p r ih =>
    obtain ⟨l, t1, t2⟩ := p
    by_cases h : l = cur
    · obtain ⟨e2, tl, htl⟩ := ih cur s t2
      exact ⟨e2, tl, by simp only [mergeLoop, if_pos h]; exact htl⟩
    · exact ⟨round3 e, mergeLoop l t1 t2 r, by simp only [mergeLoop, if_neg h]⟩

theorem mergeLoop_ne_nil {L : Type} [DecidableEq L] (cur : L) (s e : ℚ)
    (rest : List (L × ℚ × ℚ)) : mergeLoop cur s e rest ≠ [] := by
  obtain ⟨e2, tl, h⟩ := mergeLoop_cons cur s e rest
  simp [h]

/-- Union invariant of the merging loop: the emitted segments cover
exactly the accumulator's range together with the remaining frames'
ranges (boundaries at millisecond precision, so that the emitted-side
rounding is the identity). -/
theorem mergeLoop_cover {L : Type} [DecidableEq L] (cur : L) (s e : ℚ)
    (rest : List (L × ℚ × ℚ)) (hal : Aligned s e rest)
    (hms : milli s) (hme : milli e)
    (hmr : ∀ p ∈ rest, milli (p.2.1) ∧ milli (p.2.2)) (x : ℚ) :
    SegsCover (mergeLoop cur s e rest) x ↔
      ((s ≤ x ∧ x < e) ∨ TimesCover (rest.map Prod.snd) x) := by
  induction rest generalizing cur s e with
  | nil =>
    simp only [mergeLoop, round3_of_milli hms, round3_of_milli hme]
    simp [SegsCover, TimesCover]
  | cons p r ih =>
    obtain ⟨l, t1, t2⟩ := p
    simp only [Aligned] at hal
    obtain ⟨hse, hst1, ht1e, het2, hal'⟩ := hal
    have hmt : milli t1 ∧ milli t2 := hmr (l, t1, t2) (List.mem_cons_self _ _)
    have hmr' : ∀ p ∈ r, milli (p.2.1) ∧ milli (p.2.2) :=
      fun p hp => hmr p (List.mem_cons_of_mem _ hp)
    by_cases h : l = cur
    · rw [show mergeLoop cur s e ((l, t1, t2) :: r) = mergeLoop cur s t2 r from by
        simp only [mergeLoop, if_pos h]]
      rw [ih cur s t2 (aligned_extend hal' hst1) hms hmt.2 hmr']
      simp only [List.map_cons, timesCover_cons]
      constructor
      · rintro (⟨h1, h2⟩ | h3)
        · rcases lt_or_le x e with hxe | hex
          · exact Or.inl ⟨h1, hxe⟩
          · exact Or.inr (Or.inl ⟨ht1e.trans hex, h2⟩)
        · exact Or.inr (Or.inr h3)
      · rintro (⟨h1, h2⟩ | ⟨h1, h2⟩ | h3)
        · exact Or.inl ⟨h1, h2.trans_le het2⟩
        · exact Or.inl ⟨hst1.trans h1, h2⟩
        · exact Or.inr h3
    · rw [show mergeLoop cur s e ((l, t1, t2) :: r) =
          ⟨round3 s, round3 e, cur⟩ :: mergeLoop l t1 t2 r from by
        simp only [mergeLoop, if_neg h]]
      rw [segsCover_cons, ih l t1 t2 hal' hmt.1 hmt.2 hmr',
        round3_of_milli hms, round3_of_milli hme]
      simp only [List.map_cons, timesCover_cons]

/-- The emitted segments are sorted by start time. -/
theorem mergeLoop_sorted {L : Type} [DecidableEq L] (cur : L) (s e : ℚ)
    (rest : List (L × ℚ × ℚ)) (hal : Aligned s e rest)
    (hms : milli s)
    (hmr : ∀ p ∈ rest, milli (p.2.1) ∧ milli (p.2.2)) :
    List.Chain' (fun a b : Segment L => a.start ≤ b.start)
      (mergeLoop cur s e rest) := by
  induction rest generalizing cur s e with
  | nil => simp [mergeLoop]
  | cons p r ih =>
    obtain ⟨l, t1, t2⟩ := p
    simp only [Aligned] at hal
    obtain ⟨hse, hst1, ht1e, het2, hal'⟩ := hal
    have hmt : milli t1 ∧ milli t2 := hmr (l, t1, t2) (List.mem_cons_self _ _)
    have hmr' : ∀ p ∈ r, milli (p.2.1) ∧ milli (p.2.2) :=
      fun p hp => hmr p (List.mem_cons_of_mem _ hp)
    by_cases h : l = cur
    · rw [show mergeLoop cur s e ((l, t1, t2) :: r) = mergeLoop cur s t2 r from by
        simp only [mergeLoop, if_pos h]]
      exact ih cur s t2 (aligned_extend hal' hst1) hms hmr'
    · rw [show mergeLoop cur s e ((l, t1, t2) :: r) =
          ⟨round3 s, round3 e, cur⟩ :: mergeLoop l t1 t2 r from by
        simp only [mergeLoop, if_neg h]]
      obtain ⟨e2, tl, htl⟩ := mergeLoop_cons l t1 t2 r
      rw [htl]
      refine List.Chain'.cons ?_ (htl ▸ ih l t1 t2 hal' hmt.1 hmr')
      show round3 s ≤ round3 t1
      rw [round3_of_milli hms, round3_of_milli hmt.1]
      exact hst1

/-- Consecutive emitted segments always carry distinct labels. -/
theorem mergeLoop_labels_ne {L : Type} [DecidableEq L] (cur : L) (s e : ℚ)
    (rest : List (L × ℚ × ℚ)) :
    List.Chain' (fun a b : Segment L => a.label ≠ b.label)
      (mergeLoop cur s e rest) := by
  induction rest generalizing cur s e with
  | nil => simp [mergeLoop]
  | cons p r ih =>
    obtain ⟨l, t1, t2⟩ := p
    by_cases h : l = cur
    · rw [show mergeLoop cur s e ((l, t1, t2) :: r) = mergeLoop cur s t2 r from by
        simp only [mergeLoop, if_pos h]]
      exact ih cur s t2
    · rw [show mergeLoop cur s e ((l, t1, t2) :: r) =
          ⟨round3 s, round3 e, cur⟩ :: mergeLoop l t1 t2 r from by
        simp only [mergeLoop, if_neg h]]
      obtain ⟨e2, tl, htl⟩ := mergeLoop_cons l t1 t2 r
      rw [htl]
      exact List.Chain'.cons (fun heq => h (heq.symm)) (htl ▸ ih l t1 t2)

/-- All emitted boundaries are at millisecond precision. -/
theorem mergeLoop_milli {L : Type} [DecidableEq L] (cur : L) (s e : ℚ)
    (rest : List (L × ℚ × ℚ)) :
    ∀ g ∈ mergeLoop cur s e rest, milli g.start ∧ milli g.stop := by
  induction rest generalizing cur s e with
  | nil =>
    intro g hg
    simp only [mergeLoop, List.mem_singleton] at hg
    subst hg
    exact ⟨milli_round3 s, milli_round3 e⟩
  | cons p r ih =>
    obtain ⟨l, t1, t2⟩ := p
    intro g hg
    by_cases h : l = cur
    · rw [show mergeLoop cur s e ((l, t1, t2) :: r) = mergeLoop cur s t2 r from by
        simp only [mergeLoop, if_pos h]] at hg
      exact ih cur s t2 g hg
    · rw [show mergeLoop cur s e ((l, t1, t2) :: r) =
          ⟨round3 s, round3 e, cur⟩ :: mergeLoop l t1 t2 r from by
        simp only [mergeLoop, if_neg h]] at hg
      rcases List.mem_cons.mp hg with hg | hg
      · subst hg; exact ⟨milli_round3 s, milli_round3 e⟩
      · exact ih l t1 t2 g hg

/-- A segment list with pairwise-distinct adjacent labels and millisecond
boundaries is a fixed point of the merging loop. -/
theorem mergeLoop_fixed {L : Type} [DecidableEq L] (g : Segment L)
    (rest : List (Segment L))
    (hch : List.Chain' (fun a b : Segment L => a.label ≠ b.label) (g :: rest))
    (hm : ∀ h ∈ g :: rest, milli h.start ∧ milli h.stop) :
    mergeLoop g.label g.start g.stop (rest.map fun h => (h.label, h.start, h.stop)) =
      g :: rest := by
  induction rest generalizing g with
  | nil =>
    have hg := hm g (List.mem_cons_self _ _)
    simp only [List.map_nil, mergeLoop,
      round3_of_milli hg.1, round3_of_milli hg.2]
  | cons h2 r ih =>
    have hne : g.label ≠ h2.label := (List.chain'_cons.mp hch).1
    have hg := hm g (List.mem_cons_self _ _)
    simp only [List.map_cons, mergeLoop]
    rw [if_neg (fun heq => hne heq.symm)]
    rw [round3_of_milli hg.1, round3_of_milli hg.2]
    have hrec := ih h2 (List.chain'_cons.mp hch).2
      (fun h hh => hm h (List.mem_cons_of_mem _ hh))
    rw [hrec]

/-! ## Speaker clusterer (lines 129–142)

The source delegates the agglomerative step to
`sklearn.cluster.AgglomerativeClustering(n_clusters, metric="cosine",
linkage="average")`, which is a third-party library, not part of this
repository.  The definitions `cosDist` … `agglomLabels` below are
therefore *modelled from the spec* (§4.3): start from singleton clusters,
repeatedly merge the two clusters at minimal average-linkage cosine
distance until exactly `n_clusters` clusters remain, then label each
frame by its cluster.  The spec leaves tie-breaking unspecified (any
deterministic rule is acceptable); this model scans candidate pairs in
lexicographic order and keeps the earliest minimum.  Cosine distances are
real numbers (so these definitions are not executable — they are forced
through `Real.sqrt`); every claim that must be *evaluated* only exercises
the trivial `n_clusters == 1` / tiny-`N` paths, which never compare
distances. -/

/-- Dot product of two embedding vectors (numpy broadcasting truncates to
the shorter vector; the pipeline only ever compares equal-length rows). -/
def dotQ (u v : List ℚ) : ℚ := (List.zipWith (· * ·) u v).sum

/-- Modelled from the spec: cosine distance `1 − cosine similarity`
between two embedding rows (the `metric="cosine"` of the sklearn call,
which is not part of this repository). -/
noncomputable def cosDist (u v : List ℚ) : ℝ :=
  1 - ((dotQ u v : ℚ) : ℝ) /
    (Real.sqrt ((dotQ u u : ℚ) : ℝ) * Real.sqrt ((dotQ v v : ℚ) : ℝ))

/-- Pairwise cosine-distance matrix of an embedding list, indexed by row
number. -/
noncomputable def cosMatrix (embs : List (List ℚ)) : ℕ → ℕ → ℝ :=
  fun i j => cosDist (embs.getD i []) (embs.getD j [])

/-- Modelled from the spec: average linkage — the mean pairwise distance
across all cross-cluster point pairs (clusters are lists of original row
indices). -/
noncomputable def linkage (d : ℕ → ℕ → ℝ) (A B : List ℕ) : ℝ :=
  (A.flatMap fun i => B.map fun j => d i j).sum / ((A.length * B.length : ℕ) : ℝ)

/-- All index pairs `(i, j)` with `i < j < m`, in lexicographic order. -/
def pairList (m : ℕ) : List (ℕ × ℕ) :=
  (List.range m).flatMap fun i => ((List.range m).filter fun j => i < j).map fun j => (i, j)

/-- Left fold keeping the argument of the strictly smallest value seen so
far (earliest wins on ties). -/
noncomputable def selectMin (f : ℕ × ℕ → ℝ) : ℕ × ℕ → List (ℕ × ℕ) → ℕ × ℕ
  | b, [] => b
  | b, q :: ps => selectMin f (if f q < f b then q else b) ps

/-- The pair of cluster positions with minimal average linkage. -/
noncomputable def argminPair (d : ℕ → ℕ → ℝ) (cs : List (List ℕ)) : Option (ℕ × ℕ) :=
  match pairList cs.length with
  | [] => none
  | p :: ps =>
    some (selectMin (fun q => linkage d (cs.getD q.1 []) (cs.getD q.2 [])) p ps)

/-- Modelled from the spec: one agglomerative step — merge the two
closest clusters (the merged cluster replaces them at the front). -/
noncomputable def mergeOnce (d : ℕ → ℕ → ℝ) (cs : List (List ℕ)) : List (List ℕ) :=
  match argminPair d cs with
  | none => cs
  | some (i, j) => (cs.getD i [] ++ cs.getD j []) :: (cs.eraseIdx j).eraseIdx i

/-- Merge until at most `k` clusters remain (the fuel is always supplied
as the initial cluster count, which suffices). -/
noncomputable def mergeSteps (d : ℕ → ℕ → ℝ) (k : ℕ) : ℕ → List (List ℕ) → List (List ℕ)
  | 0, cs => cs
  | fuel + 1, cs => if cs.length ≤ k then cs else mergeSteps d k fuel (mergeOnce d cs)

/-- Modelled from the spec: agglomerative clustering of `n` points into
`k` clusters under distance matrix `d`; returns the per-point label
array (the label is the final position of the point's cluster). -/
noncomputable def agglomLabels (d : ℕ → ℕ → ℝ) (n k : ℕ) : List ℕ :=
  let final := mergeSteps d k n ((List.range n).map fun i => [i])
  (List.range n).map fun i => final.findIdx fun c => c.contains i

/-- `n_clusters = min(max_speakers, len(embeddings))`, floored at 1
(lines 129–132). -/
def n_clusters (max_speakers : ℤ) (n : ℕ) : ℤ :=
  let k := min max_speakers (n : ℤ)
  if k < 1 then 1 else k

/-- The label computation of `main` (lines 129–142): all-zero labels when
a single cluster is requested, otherwise agglomerative clustering with
cosine distance and average linkage. -/
noncomputable def cluster_labels (embs : List (List ℚ)) (max_speakers : ℤ) : List ℕ :=
  let k := n_clusters max_speakers embs.length
  if k = 1 then List.replicate embs.length 0
  else agglomLabels (cosMatrix embs) embs.length k.toNat

/-! ## The pipeline (`main`, lines 80–147)

Modelled from after `load_audio_mono_16k` returns (so `sr = 16000` and
`frame_sec = 1.5`, `hop_sec = 0.75` are the hard-coded constants).  The
embedding extractor is the abstract parameter `embed`; `np.stack` plus
the 2-D reshape guard are identities on the list-of-rows representation.
Writing `{"speakerSegments": …}` to the output file is modelled as
returning the segment list; `none` is an uncaught exception. -/

/-- The diarization pipeline from decoded audio to the emitted
`speakerSegments` list.  A `none` from the sampler (the `range(..., 0)`
exception) propagates: the program dies before anything is written. -/
noncomputable def main (audio : List ℚ) (embed : List ℚ → List ℚ)
    (max_speakers : ℤ) : Option (List (Segment ℕ)) :=
  (slice_frames audio 16000 (3/2) (3/4)).map fun ft =>
    if ft.1.length = 0 then []
    else
      let embeddings := ft.1.map embed
      if embeddings.length < 2 then []
      else frames_to_segments (cluster_labels embeddings max_speakers) ft.2

/-- A concrete stand-in embedding extractor for witnesses (any function
of the right type works; the properties witnessed do not depend on it). -/
def embed0 : List ℚ → List ℚ := fun _ => [1, 0]

/-! ### Structural facts about the modelled clusterer -/

theorem pairList_mem {m : ℕ} {p : ℕ × ℕ} (hp : p ∈ pairList m) :
    p.1 < p.2 ∧ p.2 < m := by
  unfold pairList at hp
  simp only [List.mem_flatMap, List.mem_map, List.mem_filter, List.mem_range,
    decide_eq_true_eq] at hp
  obtain ⟨i, _, j, ⟨hj, hij⟩, rfl⟩ := hp
  exact ⟨hij, hj⟩

theorem pairList_ne_nil {m : ℕ} (hm : 2 ≤ m) : pairList m ≠ [] := by
  apply List.ne_nil_of_mem (a := ((0, 1) : ℕ × ℕ))
  unfold pairList
  simp only [List.mem_flatMap, List.mem_map, List.mem_filter, List.mem_range,
    decide_eq_true_eq]
  exact ⟨0, by omega, 1, ⟨by omega, by omega⟩, rfl⟩

theorem selectMin_mem (f : ℕ × ℕ → ℝ) (b : ℕ × ℕ) (ps : List (ℕ × ℕ)) :
    selectMin f b ps ∈ b :: ps := by
  induction ps generalizing b with
  | nil => simp [selectMin]
  | cons q ps ih =>
    simp only [selectMin]
    by_cases h : f q < f b
    · rw [if_pos h]
      rcases List.mem_cons.mp (ih q) with h' | h'
      · rw [h']; exact List.mem_cons_of_mem _ (List.mem_cons_self _ _)
      · exact List.mem_cons_of_mem _ (List.mem_cons_of_mem _ h')
    · rw [if_neg h]
      rcases List.mem_cons.mp (ih b) with h' | h'
      · rw [h']; exact List.mem_cons_self _ _
      · exact List.mem_cons_of_mem _ (List.mem_cons_of_mem _ h')

theorem argminPair_spec (d : ℕ → ℕ → ℝ) (cs : List (List ℕ))
    (h2 : 2 ≤ cs.length) :
    ∃ i j, argminPair d cs = some (i, j) ∧ i < j ∧ j < cs.length := by
  unfold argminPair
  cases hpl : pairList cs.length with
  | nil => exact absurd hpl (pairList_ne_nil h2)
  | cons p ps =>
    have hq := selectMin_mem
      (fun q => linkage d (cs.getD q.1 []) (cs.getD q.2 [])) p ps
    rw [← hpl] at hq
    have hb := pairList_mem hq
    exact ⟨_, _, rfl, hb.1, hb.2⟩

theorem mergeOnce_length (d : ℕ → ℕ → ℝ) (cs : List (List ℕ))
    (h2 : 2 ≤ cs.length) : (mergeOnce d cs).length = cs.length - 1 := by
  obtain ⟨i, j, hspec, hij, hj⟩ := argminPair_spec d cs h2
  unfold mergeOnce
  rw [hspec]
  simp only [List.length_cons, List.length_eraseIdx]
  split
  · split <;> omega
  · split <;> omega

theorem getElem_eraseIdx_exists {α : Type} (l : List α) (p q : ℕ)
    (hp : p < l.length) (hne : p ≠ q) :
    ∃ r, ∃ hr : r < (l.eraseIdx q).length,
      (l.eraseIdx q)[r] = l[p] ∧ (r = p ∨ (q < p ∧ r = p - 1)) := by
  rcases lt_or_gt_of_ne hne with h | h
  · have hr : p < (l.eraseIdx q).length := by
      rw [List.length_eraseIdx]; split <;> omega
    exact ⟨p, hr, List.getElem_eraseIdx_of_lt l q p hr h, Or.inl rfl⟩
  · have hr : p - 1 < (l.eraseIdx q).length := by
      rw [List.length_eraseIdx]; split <;> omega
    refine ⟨p - 1, hr, ?_, Or.inr ⟨h, rfl⟩⟩
    have := List.getElem_eraseIdx_of_ge l q (p - 1) hr (by omega)
    rw [this]
    congr 1
    omega

theorem mergeOnce_covers (d : ℕ → ℕ → ℝ) (cs : List (List ℕ)) (x : ℕ)
    (h2 : 2 ≤ cs.length) (hx : ∃ c ∈ cs, x ∈ c) :
    ∃ c ∈ mergeOnce d cs, x ∈ c := by
  obtain ⟨i, j, hspec, hij, hj⟩ := argminPair_spec d cs h2
  unfold mergeOnce
  rw [hspec]
  obtain ⟨c, hc, hxc⟩ := hx
  obtain ⟨p, hp, rfl⟩ := List.mem_iff_getElem.mp hc
  by_cases hpi : p = i
  · refine ⟨cs.getD i [] ++ cs.getD j [], List.mem_cons_self _ _, ?_⟩
    rw [List.getD_eq_getElem cs [] (show i < cs.length by omega)]
    subst hpi
    exact List.mem_append_left _ hxc
  · by_cases hpj : p = j
    · refine ⟨cs.getD i [] ++ cs.getD j [], List.mem_cons_self _ _, ?_⟩
      rw [List.getD_eq_getElem cs [] (show j < cs.length by omega)]
      subst hpj
      exact List.mem_append_right _ hxc
    · obtain ⟨r, hr, hre, hror⟩ := getElem_eraseIdx_exists cs p j hp hpj
      have hri : r ≠ i := by
        rcases hror with h' | ⟨h1, h2'⟩ <;> omega
      obtain ⟨r2, hr2, hre2, _⟩ :=
        getElem_eraseIdx_exists (cs.eraseIdx j) r i hr hri
      refine ⟨((cs.eraseIdx j).eraseIdx i)[r2],
        List.mem_cons_of_mem _ (List.getElem_mem hr2), ?_⟩
      rw [hre2, hre]
      exact hxc

theorem mergeSteps_covers (d : ℕ → ℕ → ℝ) (k : ℕ) (hk : 1 ≤ k) (x : ℕ) :
    ∀ (fuel : ℕ) (cs : List (List ℕ)), (∃ c ∈ cs, x ∈ c) →
      ∃ c ∈ mergeSteps d k fuel cs, x ∈ c := by
  intro fuel
  induction fuel with
  | zero => intro cs hx; exact hx
  | succ fuel ih =>
    intro cs hx
    simp only [mergeSteps]
    by_cases h : cs.length ≤ k
    · rw [if_pos h]; exact hx
    · rw [if_neg h]
      exact ih _ (mergeOnce_covers d cs x (by omega) hx)

theorem mergeSteps_length (d : ℕ → ℕ → ℝ) (k : ℕ) (hk : 1 ≤ k) :
    ∀ (fuel : ℕ) (cs : List (List ℕ)), k ≤ cs.length → cs.length ≤ k + fuel →
      (mergeSteps d k fuel cs).length = k := by
  intro fuel
  induction fuel with
  | zero =>
    intro cs hlb hub
    simp only [mergeSteps]
    omega
  | succ fuel ih =>
    intro cs hlb hub
    simp only [mergeSteps]
    by_cases h : cs.length ≤ k
    · rw [if_pos h]; omega
    · rw [if_neg h]
      have hm := mergeOnce_length d cs (by omega)
      exact ih _ (by omega) (by omega)

theorem agglomLabels_lt (d : ℕ → ℕ → ℝ) (n k : ℕ) (hk : 1 ≤ k)
    (hkn : k ≤ n) : ∀ l ∈ agglomLabels d n k, l < k := by
  intro l hl
  unfold agglomLabels at hl
  simp only [List.mem_map, List.mem_range] at hl
  obtain ⟨i, hi, rfl⟩ := hl
  have hinitlen : ((List.range n).map fun i => ([i] : List ℕ)).length = n := by simp
  have hlen : (mergeSteps d k n ((List.range n).map fun i => [i])).length = k :=
    mergeSteps_length d k hk n _ (by omega) (by omega)
  have hcov : ∃ c ∈ mergeSteps d k n ((List.range n).map fun i => [i]), i ∈ c := by
    apply mergeSteps_covers d k hk i n
    refine ⟨[i], ?_, by simp⟩
    simp only [List.mem_map, List.mem_range]
    exact ⟨i, hi, rfl⟩
  have hidx : (mergeSteps d k n ((List.range n).map fun i => [i])).findIdx
      (fun c => c.contains i) < (mergeSteps d k n ((List.range n).map fun i => [i])).length := by
    apply List.findIdx_lt_length_of_exists
    obtain ⟨c, hc, hic⟩ := hcov
    exact ⟨c, hc, List.elem_iff.mpr hic⟩
  omega

/-! ### Evaluation helpers for the default configuration -/

theorem pyInt_frame : pyInt ((3 : ℚ)/2 * ((16000 : ℕ) : ℚ)) = 24000 := by
  rw [show (3 : ℚ)/2 * ((16000 : ℕ) : ℚ) = ((24000 : ℤ) : ℚ) by norm_num]
  exact pyInt_intCast 24000

theorem pyInt_hop : pyInt ((3 : ℚ)/4 * ((16000 : ℕ) : ℚ)) = 12000 := by
  rw [show (3 : ℚ)/4 * ((16000 : ℕ) : ℚ) = ((12000 : ℤ) : ℚ) by norm_num]
  exact pyInt_intCast 12000

theorem milli_of_eq {q : ℚ} (n : ℤ) (h : q * 1000 = (n : ℚ)) : milli q := by
  unfold milli
  rw [h]
  exact Rat.intCast_den _

theorem pyRange_mem {stop step x : ℤ} (hx : x ∈ pyRange stop step) :
    ∃ i : ℕ, x = (i : ℤ) * step := by
  unfold pyRange at hx
  split at hx
  · rw [List.mem_map] at hx
    obtain ⟨i, _, hxi⟩ := hx
    exact ⟨i, hxi.symm⟩
  · cases hx

theorem slice_frames_lengths {audio : List ℚ} {sr : ℕ} {fs hs : ℚ}
    {F : List (List ℚ)} {T : List (ℚ × ℚ)}
    (h : slice_frames audio sr fs hs = some (F, T)) : F.length = T.length := by
  simp only [slice_frames] at h
  split at h
  · simp only [Option.some.injEq, Prod.mk.injEq] at h
    obtain ⟨h1, h2⟩ := h
    rw [← h1, ← h2]
    rfl
  · split at h
    · exact absurd h (by simp)
    · simp only [Option.some.injEq, Prod.mk.injEq] at h
      obtain ⟨h1, h2⟩ := h
      rw [← h1, ← h2]
      simp

theorem slice_frames_milli {audio : List ℚ} {F : List (List ℚ)}
    {T : List (ℚ × ℚ)}
    (h : slice_frames audio 16000 (3/2) (3/4) = some (F, T)) :
    ∀ t ∈ T, milli t.1 ∧ milli t.2 := by
  simp only [slice_frames, pyInt_frame, pyInt_hop] at h
  split at h
  · simp only [Option.some.injEq, Prod.mk.injEq] at h
    rw [← h.2]
    intro t ht
    cases ht
  · split at h
    · exact absurd h (by simp)
    · simp only [Option.some.injEq, Prod.mk.injEq] at h
      rw [← h.2]
      intro t ht
      simp only [List.mem_map] at ht
      obtain ⟨s, hs, rfl⟩ := ht
      obtain ⟨i, rfl⟩ := pyRange_mem hs
      constructor
      · exact milli_of_eq (750 * (i : ℤ)) (by push_cast; ring)
      · exact milli_of_eq (750 * (i : ℤ) + 1500) (by push_cast; ring)

/-- The sampler on 1.5 s of silence: exactly one frame. -/
theorem slice_frames_rep24 :
    slice_frames (List.replicate 24000 (0 : ℚ)) 16000 (3/2) (3/4) =
      some ([List.replicate 24000 0], [(0, 3/2)]) := by
  simp only [slice_frames, pyInt_frame, pyInt_hop, List.length_replicate]
  norm_num
  rw [show pyRange 1 12000 = [(0 : ℤ)] from by decide,
    show Int.toNat 24000 = 24000 from by decide]
  norm_num

/-- The sampler on 2.25 s of silence: exactly two overlapping frames. -/
theorem slice_frames_rep36 :
    slice_frames (List.replicate 36000 (0 : ℚ)) 16000 (3/2) (3/4) =
      some ([List.replicate 24000 0, List.replicate 24000 0],
            [(0, 3/2), (3/4, 9/4)]) := by
  simp only [slice_frames, pyInt_frame, pyInt_hop, List.length_replicate]
  norm_num [Int.toNat_ofNat]
  rw [show pyRange 12001 12000 = [(0 : ℤ), 12000] from by decide,
    show Int.toNat 24000 = 24000 from by decide]
  norm_num [Int.toNat_ofNat]
  omega

/-- Unfolding of `main` once the sampler's output is known. -/
theorem main_of_slice {audio : List ℚ} {F : List (List ℚ)} {T : List (ℚ × ℚ)}
    (embed : List ℚ → List ℚ) (K : ℤ)
    (h : slice_frames audio 16000 (3/2) (3/4) = some (F, T)) :
    main audio embed K =
      if F.length = 0 then some []
      else if (F.map embed).length < 2 then some []
      else some (frames_to_segments (cluster_labels (F.map embed) K) T) := by
  unfold main
  rw [h, Option.map_some']
  split_ifs with h1 h2
  · rfl
  · show some (if (List.map embed F).length < 2 then [] else _) = some []
    rw [if_pos h2]
  · show some (if (List.map embed F).length < 2 then [] else _) = some _
    rw [if_neg h2]

/-- The trivial clustering branch: one cluster requested, all labels 0. -/
theorem cluster_labels_one {embs : List (List ℚ)} {K : ℤ}
    (h : n_clusters K embs.length = 1) :
    cluster_labels embs K = List.replicate embs.length 0 := by
  simp only [cluster_labels]
  rw [if_pos h]

theorem zip_replicate_eq_map {L : Type} (l : L) (ts : List (ℚ × ℚ)) :
    (List.replicate ts.length l).zip ts = ts.map fun t => (l, t) := by
  induction ts with
  | nil => rfl
  | cons t ts ih => simp only [List.length_cons, List.replicate_succ,
      List.zip_cons_cons, List.map_cons, ih]

/-- The merging loop over constant labels produces a single segment
running to the last frame's end. -/
theorem mergeLoop_const {L : Type} [DecidableEq L] (l : L) (s e : ℚ)
    (ts : List (ℚ × ℚ)) :
    mergeLoop l s e (ts.map fun t => (l, t)) =
      [⟨round3 s, round3 ((ts.getLast?.map Prod.snd).getD e), l⟩] := by
  induction ts generalizing e with
  | nil => simp [mergeLoop]
  | cons t ts ih =>
    obtain ⟨t1, t2⟩ := t
    rw [List.map_cons,
      show mergeLoop l s e ((l, t1, t2) :: ts.map fun t => (l, t)) =
        mergeLoop l s t2 (ts.map fun t => (l, t)) from by
          simp only [mergeLoop, if_pos],
      ih t2]
    cases ts with
    | nil => rfl
    | cons u us =>
      rw [List.getLast?_cons_cons]
      obtain ⟨g, hg⟩ : ∃ g, (u :: us).getLast? = some g :=
        ⟨_, List.getLast?_eq_getLast _ (by simp)⟩
      rw [hg]
      rfl

/-- `frames_to_segments` with constant labels: one segment from the first
frame's start to the last frame's end. -/
theorem frames_to_segments_const {L : Type} [DecidableEq L] (l : L)
    (t0 : ℚ × ℚ) (ts : List (ℚ × ℚ)) :
    frames_to_segments (List.replicate (ts.length + 1) l) (t0 :: ts) =
      [⟨round3 t0.1, round3 ((ts.getLast?.map Prod.snd).getD t0.2), l⟩] := by
  rw [show List.replicate (ts.length + 1) l = l :: List.replicate ts.length l from
    List.replicate_succ l ts.length]
  show mergeLoop l t0.1 t0.2 ((List.replicate ts.length l).zip ts) = _
  rw [zip_replicate_eq_map, mergeLoop_const]

/-- The accumulated final end time is the last frame's end. -/
theorem lastEnd_eq (t0 : ℚ × ℚ) (ts : List (ℚ × ℚ)) :
    (ts.getLast?.map Prod.snd).getD t0.2 =
      ((t0 :: ts).getLast (List.cons_ne_nil t0 ts)).2 := by
  cases ts with
  | nil => rfl
  | cons u us =>
    rw [List.getLast?_eq_getLast (u :: us) (List.cons_ne_nil u us)]
    rw [List.getLast_cons (List.cons_ne_nil u us)]
    rfl

theorem frames_to_segments_cons {L : Type} [DecidableEq L] (l : L)
    (ls : List L) (t : ℚ × ℚ) (ts : List (ℚ × ℚ)) :
    frames_to_segments (l :: ls) (t :: ts) = mergeLoop l t.1 t.2 (ls.zip ts) := rfl

/-! ## The claims -/

/-- C5: a signal shorter than one frame length yields an empty frame
sequence from the sampler and an empty segment list from the pipeline —
a normal, non-error outcome. -/
theorem short_signal_empty (audio : List ℚ) (sr : ℕ) (fs hs : ℚ)
    (embed : List ℚ → List ℚ) (K : ℤ) :
    ((audio.length : ℤ) < pyInt (fs * (sr : ℚ)) →
      slice_frames audio sr fs hs = some ([], [])) ∧
    ((audio.length : ℤ) < pyInt ((3 : ℚ)/2 * ((16000 : ℕ) : ℚ)) →
      main audio embed K = some []) := by
  constructor
  · intro h
    simp only [slice_frames]
    rw [if_pos h]
  · intro h
    have hs1 : slice_frames audio 16000 (3/2) (3/4) = some ([], []) := by
      simp only [slice_frames]
      rw [if_pos h]
    rw [main_of_slice embed K hs1]
    rfl

/-- C5 witness: the empty signal. -/
theorem short_signal_empty_witness :
    ((([] : List ℚ).length : ℤ) < pyInt ((3 : ℚ)/2 * ((16000 : ℕ) : ℚ)) ∧
      slice_frames [] 16000 (3/2) (3/4) = some ([], []) ∧
      main [] embed0 6 = some []) := by
  have hlt : (([] : List ℚ).length : ℤ) < pyInt ((3 : ℚ)/2 * ((16000 : ℕ) : ℚ)) := by
    rw [pyInt_frame]
    simp
  exact ⟨hlt, (short_signal_empty [] 16000 (3/2) (3/4) embed0 6).1 hlt,
    (short_signal_empty [] 16000 (3/2) (3/4) embed0 6).2 hlt⟩

/-- C10: `slice_frames` is not total: for a positive `hop_sec` whose hop
length `int(hop_sec * sr)` is 0 and any signal at least one frame long,
the `range(..., 0)` construction raises instead of returning frames. -/
theorem slice_frames_zero_hop (hs : ℚ) (audio : List ℚ)
    (_hpos : 0 < hs) (hzero : pyInt (hs * ((16000 : ℕ) : ℚ)) = 0)
    (hlen : 24000 ≤ audio.length) :
    slice_frames audio 16000 (3/2) hs = none := by
  simp only [slice_frames, pyInt_frame, hzero]
  rw [if_neg (not_lt.mpr (by exact_mod_cast hlen))]
  norm_num

/-- C10 witness: `hop_sec = 0.00005` (hop length `int(0.8) = 0`) with
1.5 s of silence. -/
theorem slice_frames_zero_hop_witness :
    (0 : ℚ) < 1/20000 ∧ pyInt ((1 : ℚ)/20000 * ((16000 : ℕ) : ℚ)) = 0 ∧
      24000 ≤ (List.replicate 24000 (0 : ℚ)).length ∧
      slice_frames (List.replicate 24000 (0 : ℚ)) 16000 (3/2) (1/20000) = none := by
  refine ⟨by norm_num, by norm_num [pyInt], by simp only [List.length_replicate]; norm_num, ?_⟩
  exact slice_frames_zero_hop (1/20000) _ (by norm_num) (by norm_num [pyInt])
    (by simp only [List.length_replicate]; norm_num)

/-- C4 counterexample: with `frame_sec = 0.0001` (so `frame_sec * sr =
1.6`, `int` gives 1 but `round` gives 2) and a 1-sample signal, the
sampler emits a window at offset 0 even though
`0 + round(frame_sec * sr) = 2` exceeds the signal length — the source
truncates with `int()`, it does not round. -/
theorem slice_frames_trunc_ce :
    slice_frames [(0 : ℚ)] 16000 (1/10000) (1/16000) =
      some ([[(0 : ℚ)]], [(0, 1/16000)]) ∧
    roundHalfEven ((1 : ℚ)/10000 * ((16000 : ℕ) : ℚ)) = 2 ∧
    ¬((0 : ℤ) + 2 ≤ (([(0 : ℚ)]).length : ℤ)) := by
  refine ⟨?_, ?_, by simp⟩
  · have hfl : pyInt ((1 : ℚ)/10000 * ((16000 : ℕ) : ℚ)) = 1 := by norm_num [pyInt]
    have hhl : pyInt ((1 : ℚ)/16000 * ((16000 : ℕ) : ℚ)) = 1 := by norm_num [pyInt]
    simp only [slice_frames, hfl, hhl, List.length_cons, List.length_nil]
    norm_num
    rw [show pyRange 1 1 = [(0 : ℤ)] from by decide]
    norm_num
  · have : (1 : ℚ)/10000 * ((16000 : ℕ) : ℚ) = 8/5 := by norm_num
    rw [this]
    unfold roundHalfEven
    norm_num

/-- C4 (amended): the sampler computes `frameLen = int(frameSec * sr)`
and `hopLen = int(hopSec * sr)` — truncation toward zero, not
`round()` — and, when the hop length is positive, emits exactly the
windows at offsets `0, hopLen, 2*hopLen, …` whose end fits in the
signal (`start + frameLen ≤ len(signal)`), in that order. -/
theorem slice_frames_windows (audio : List ℚ) (sr : ℕ) (fs hs : ℚ)
    (hpos : 0 < pyInt (hs * (sr : ℚ))) :
    ∃ N : ℕ,
      slice_frames audio sr fs hs = some
        ((List.range N).map fun (k : ℕ) =>
          (audio.drop ((k : ℤ) * pyInt (hs * (sr : ℚ))).toNat).take
            (pyInt (fs * (sr : ℚ))).toNat,
         (List.range N).map fun (k : ℕ) =>
          ((((k : ℤ) * pyInt (hs * (sr : ℚ)) : ℤ) : ℚ) / (sr : ℚ),
           (((k : ℤ) * pyInt (hs * (sr : ℚ)) + pyInt (fs * (sr : ℚ)) : ℤ) : ℚ) / (sr : ℚ))) ∧
      (∀ k : ℕ, k < N →
        (k : ℤ) * pyInt (hs * (sr : ℚ)) + pyInt (fs * (sr : ℚ)) ≤ (audio.length : ℤ)) ∧
      (audio.length : ℤ) < (N : ℤ) * pyInt (hs * (sr : ℚ)) + pyInt (fs * (sr : ℚ)) := by
  by_cases hshort : (audio.length : ℤ) < pyInt (fs * (sr : ℚ))
  · refine ⟨0, ?_, ?_, ?_⟩
    · simp only [slice_frames]
      rw [if_pos hshort]
      simp
    · intro k hk
      omega
    · simpa using hshort
  · obtain ⟨N, hrange, hlt, hge⟩ :=
      pyRange_spec ((audio.length : ℤ) - pyInt (fs * (sr : ℚ)) + 1)
        (pyInt (hs * (sr : ℚ))) hpos
    refine ⟨N, ?_, ?_, ?_⟩
    · simp only [slice_frames]
      rw [if_neg hshort, if_neg (by omega), hrange, List.map_map, List.map_map]
      rfl
    · intro k hk
      have := hlt k hk
      linarith
    · linarith

/-- C4 witness: sr = 1, frame 2 s, hop 1 s over a 3-sample signal. -/
theorem slice_frames_windows_witness :
    (0 : ℤ) < pyInt ((1 : ℚ) * ((1 : ℕ) : ℚ)) ∧
    ∃ N : ℕ,
      slice_frames [(0 : ℚ), 0, 0] 1 2 1 = some
        ((List.range N).map fun (k : ℕ) =>
          (([(0 : ℚ), 0, 0]).drop ((k : ℤ) * pyInt ((1 : ℚ) * ((1 : ℕ) : ℚ))).toNat).take
            (pyInt ((2 : ℚ) * ((1 : ℕ) : ℚ))).toNat,
         (List.range N).map fun (k : ℕ) =>
          ((((k : ℤ) * pyInt ((1 : ℚ) * ((1 : ℕ) : ℚ)) : ℤ) : ℚ) / ((1 : ℕ) : ℚ),
           (((k : ℤ) * pyInt ((1 : ℚ) * ((1 : ℕ) : ℚ)) + pyInt ((2 : ℚ) * ((1 : ℕ) : ℚ)) : ℤ) : ℚ) / ((1 : ℕ) : ℚ))) ∧
      (∀ k : ℕ, k < N →
        (k : ℤ) * pyInt ((1 : ℚ) * ((1 : ℕ) : ℚ)) + pyInt ((2 : ℚ) * ((1 : ℕ) : ℚ)) ≤
          (([(0 : ℚ), 0, 0]).length : ℤ)) ∧
      (([(0 : ℚ), 0, 0]).length : ℤ) <
        (N : ℤ) * pyInt ((1 : ℚ) * ((1 : ℕ) : ℚ)) + pyInt ((2 : ℚ) * ((1 : ℕ) : ℚ)) :=
  ⟨by norm_num [pyInt], slice_frames_windows [(0 : ℚ), 0, 0] 1 2 1 (by norm_num [pyInt])⟩

/-- C3 counterexample: a 2-channel input at 16 kHz is NOT rejected — the
loader silently averages the two channels and succeeds. -/
theorem load_audio_mixes_ce :
    load_audio_mono_16k (.multi [[1, 0]]) 16000 = .ok ([1/2], 16000) := by
  simp only [load_audio_mono_16k]
  norm_num [rowMean]

/-- C3 (amended): loading fails fast (never silently correcting) when
the sample rate differs from 16000 — no resampling is attempted — but an
input with more than one channel is NOT an error: the loader itself
averages the channels to mono before the rate check. -/
theorem load_audio_fail_fast (a : RawAudio) (sr : ℕ) (xss : List (List ℚ)) :
    (sr ≠ 16000 → load_audio_mono_16k a sr =
      .error ("Expected 16kHz WAV, got sr=" ++ toString sr ++
        ". Please resample to 16000Hz.")) ∧
    load_audio_mono_16k (.multi xss) 16000 = .ok (xss.map rowMean, 16000) := by
  constructor
  · intro h
    simp only [load_audio_mono_16k]
    rw [if_pos h]
  · simp [load_audio_mono_16k]

/-- C3 witness: a 44.1 kHz mono file is rejected; a 16 kHz stereo file is
mixed down and accepted. -/
theorem load_audio_fail_fast_witness :
    load_audio_mono_16k (.mono []) 44100 =
      .error ("Expected 16kHz WAV, got sr=" ++ toString (44100 : ℕ) ++
        ". Please resample to 16000Hz.") ∧
    load_audio_mono_16k (.multi [[1, 0]]) 16000 =
      .ok ([[(1 : ℚ), 0]].map rowMean, 16000) :=
  ⟨(load_audio_fail_fast (.mono []) 44100 [[1, 0]]).1 (by norm_num),
   (load_audio_fail_fast (.mono []) 44100 [[1, 0]]).2⟩

/-- C1 counterexample: on an input yielding exactly one frame (1.5 s of
audio) the pipeline emits an EMPTY `speakerSegments` list, not a single
segment spanning the frame. -/
theorem one_frame_not_single_segment_ce :
    main (List.replicate 24000 (0 : ℚ)) embed0 6 = some [] ∧
    some ([] : List (Segment ℕ)) ≠ some [⟨0, 3/2, 0⟩] := by
  constructor
  · rw [main_of_slice embed0 6 slice_frames_rep24]
    norm_num
  · simp

/-- C1 (amended): an input yielding exactly one frame (hence one
embedding) produces an EMPTY segment list — the `N < 2` guard returns
before the clusterer and merger ever run. -/
theorem one_frame_empty_output (audio : List ℚ) (embed : List ℚ → List ℚ)
    (K : ℤ) (F : List (List ℚ)) (T : List (ℚ × ℚ))
    (hT : slice_frames audio 16000 (3/2) (3/4) = some (F, T))
    (h1 : F.length = 1) :
    main audio embed K = some [] := by
  rw [main_of_slice embed K hT]
  rw [if_neg (by omega), if_pos (by simp only [List.length_map]; omega)]

/-- C1 witness: 1.5 s of silence yields exactly one frame and an empty
output. -/
theorem one_frame_empty_output_witness :
    slice_frames (List.replicate 24000 (0 : ℚ)) 16000 (3/2) (3/4) =
      some ([List.replicate 24000 0], [(0, 3/2)]) ∧
    ([List.replicate 24000 (0 : ℚ)] : List (List ℚ)).length = 1 ∧
    main (List.replicate 24000 (0 : ℚ)) embed0 6 = some [] :=
  ⟨slice_frames_rep24, rfl,
   one_frame_empty_output _ embed0 6 _ _ slice_frames_rep24 rfl⟩

/-- C7: with `max_speakers = 1` and at least two frames, the pipeline
emits exactly one segment, from the first frame's start to the last
frame's end. -/
theorem single_speaker_single_segment (audio : List ℚ)
    (embed : List ℚ → List ℚ) (F : List (List ℚ)) (T : List (ℚ × ℚ))
    (hT : slice_frames audio 16000 (3/2) (3/4) = some (F, T))
    (hN : 2 ≤ F.length) (hne : T ≠ []) :
    main audio embed 1 = some [⟨T.headI.1, (T.getLast hne).2, 0⟩] := by
  rw [main_of_slice embed 1 hT]
  rw [if_neg (by omega), if_neg (by simp only [List.length_map]; omega)]
  have hlen : F.length = T.length := slice_frames_lengths hT
  have hmap : (F.map embed).length = T.length := by
    simp only [List.length_map]
    exact hlen
  have hcl : cluster_labels (F.map embed) 1 =
      List.replicate (F.map embed).length 0 := by
    apply cluster_labels_one
    simp only [n_clusters]
    split
    · rfl
    · rename_i hlt
      rw [hmap] at hlt ⊢
      have h2 : (2 : ℤ) ≤ (T.length : ℤ) := by
        have := hlen ▸ hN
        exact_mod_cast this
      omega
  rw [hcl]
  obtain ⟨t0, ts, rfl⟩ : ∃ t0 ts, T = t0 :: ts := by
    cases T with
    | nil => exact absurd rfl hne
    | cons a b => exact ⟨a, b, rfl⟩
  rw [hmap, show (t0 :: ts).length = ts.length + 1 from rfl,
    frames_to_segments_const, lastEnd_eq t0 ts]
  have hm := slice_frames_milli hT
  have hm0 : milli t0.1 := (hm t0 (List.mem_cons_self _ _)).1
  have hml : milli (((t0 :: ts).getLast (List.cons_ne_nil t0 ts)).2) :=
    (hm _ (List.getLast_mem _)).2
  rw [round3_of_milli hm0, round3_of_milli hml]
  rfl

/-- C7 witness: 2.25 s of silence (two frames) with `max_speakers = 1`
gives the single segment `[0, 2.25]`. -/
theorem single_speaker_single_segment_witness :
    slice_frames (List.replicate 36000 (0 : ℚ)) 16000 (3/2) (3/4) =
      some ([List.replicate 24000 0, List.replicate 24000 0],
        [(0, 3/2), (3/4, 9/4)]) ∧
    2 ≤ ([List.replicate 24000 (0 : ℚ), List.replicate 24000 0]).length ∧
    ([((0 : ℚ), (3 : ℚ)/2), ((3 : ℚ)/4, (9 : ℚ)/4)] : List (ℚ × ℚ)) ≠ [] ∧
    main (List.replicate 36000 (0 : ℚ)) embed0 1 = some [⟨0, 9/4, 0⟩] := by
  refine ⟨slice_frames_rep36, by norm_num, by simp, ?_⟩
  exact single_speaker_single_segment (List.replicate 36000 0) embed0 _ _
    slice_frames_rep36 (by norm_num) (by simp)

/-- C8: the Segment Merger is idempotent — re-running it on its own
output (each segment read back as one frame carrying its label and time
range) returns the identical list. -/
theorem merger_idempotent {L : Type} [DecidableEq L] (labels : List L)
    (times : List (ℚ × ℚ)) (hne : labels ≠ [])
    (hlen : labels.length = times.length) :
    frames_to_segments
        ((frames_to_segments labels times).map Segment.label)
        ((frames_to_segments labels times).map fun g => (g.start, g.stop)) =
      frames_to_segments labels times := by
  cases labels with
  | nil => exact absurd rfl hne
  | cons l ls =>
    cases times with
    | nil => simp at hlen
    | cons t ts =>
      rw [frames_to_segments_cons]
      obtain ⟨e2, tl, hcons⟩ := mergeLoop_cons l t.1 t.2 (ls.zip ts)
      have hchain := mergeLoop_labels_ne l t.1 t.2 (ls.zip ts)
      have hmil := mergeLoop_milli l t.1 t.2 (ls.zip ts)
      rw [hcons] at hchain hmil ⊢
      rw [List.map_cons, List.map_cons, frames_to_segments_cons,
        List.zip_map']
      exact mergeLoop_fixed ⟨round3 t.1, e2, l⟩ tl hchain hmil

/-- C8 witness: two frames with distinct labels; the merger's output is a
fixed point. -/
theorem merger_idempotent_witness :
    (([0, 1] : List ℕ) ≠ []) ∧
    ([0, 1] : List ℕ).length = ([((0 : ℚ), (3 : ℚ)/2), ((3 : ℚ)/4, (9 : ℚ)/4)] : List (ℚ × ℚ)).length ∧
    frames_to_segments
        ((frames_to_segments [0, 1] [((0 : ℚ), (3 : ℚ)/2), ((3 : ℚ)/4, (9 : ℚ)/4)]).map Segment.label)
        ((frames_to_segments [0, 1] [((0 : ℚ), (3 : ℚ)/2), ((3 : ℚ)/4, (9 : ℚ)/4)]).map fun g => (g.start, g.stop)) =
      frames_to_segments [0, 1] [((0 : ℚ), (3 : ℚ)/2), ((3 : ℚ)/4, (9 : ℚ)/4)] :=
  ⟨by simp, by simp, merger_idempotent [0, 1] _ (by simp) (by simp)⟩

/-- Two segments overlap when their `[start, stop)` ranges intersect. -/
def segOverlap {L : Type} (a b : Segment L) : Prop :=
  max a.start b.start < min a.stop b.stop

/-- C2 counterexample: a genuine pipeline run (2.25 s of audio, two
frames, `max_speakers = 2`, so the two frames get the two distinct
labels) whose two emitted segments overlap on `[0.75, 1.5)` — the
emitted segment list is NOT pairwise non-overlapping, because the
merger keeps each segment's full frame extent and frames overlap by
half a frame. -/
theorem segments_overlap_ce :
    main (List.replicate 36000 (0 : ℚ)) embed0 2 =
      some [⟨0, 3/2, 0⟩, ⟨3/4, 9/4, 1⟩] ∧
    segOverlap (⟨0, 3/2, 0⟩ : Segment ℕ) ⟨3/4, 9/4, 1⟩ := by
  constructor
  · rw [main_of_slice embed0 2 slice_frames_rep36]
    rw [if_neg (by norm_num), if_neg (by norm_num)]
    rw [show ([List.replicate 24000 (0 : ℚ), List.replicate 24000 0]).map embed0 =
      [[1, 0], [1, 0]] from rfl]
    have hcl : cluster_labels [[(1 : ℚ), 0], [1, 0]] 2 = [0, 1] := by decide
    rw [hcl]
    have r0 : round3 0 = 0 := round3_of_milli (milli_of_eq 0 (by norm_num))
    have r32 : round3 (3/2) = 3/2 := round3_of_milli (milli_of_eq 1500 (by norm_num))
    have r34 : round3 (3/4) = 3/4 := round3_of_milli (milli_of_eq 750 (by norm_num))
    have r94 : round3 (9/4) = 9/4 := round3_of_milli (milli_of_eq 2250 (by norm_num))
    simp [frames_to_segments, mergeLoop, r0, r32, r34, r94]
  · norm_num [segOverlap]

/-- C2 (amended): for a non-empty index-aligned labels/times input whose
times are well-formed sampler output with hop ≤ frame length (sorted
starts and ends, each next frame starting no later than the current
accumulated end — the `Aligned` predicate) and millisecond-exact
boundaries, the emitted segments are non-empty, sorted by start time,
and their `[start, stop)` ranges cover exactly the union of the frames'
ranges.  (Pairwise NON-overlap, as the original claim stated, is false —
see the counterexample.) -/
theorem segments_sorted_union {L : Type} [DecidableEq L] (l0 : L)
    (ls : List L) (t0 : ℚ × ℚ) (ts : List (ℚ × ℚ))
    (hlen : ls.length = ts.length)
    (hal : Aligned t0.1 t0.2 (ls.zip ts))
    (hm0 : milli t0.1 ∧ milli t0.2)
    (hmr : ∀ t ∈ ts, milli t.1 ∧ milli t.2) :
    frames_to_segments (l0 :: ls) (t0 :: ts) ≠ [] ∧
    List.Chain' (fun a b : Segment L => a.start ≤ b.start)
      (frames_to_segments (l0 :: ls) (t0 :: ts)) ∧
    ∀ x : ℚ, SegsCover (frames_to_segments (l0 :: ls) (t0 :: ts)) x ↔
      TimesCover (t0 :: ts) x := by
  have hmr' : ∀ p ∈ ls.zip ts, milli p.2.1 ∧ milli p.2.2 := by
    intro p hp
    obtain ⟨p1, p2⟩ := p
    exact hmr p2 (List.of_mem_zip hp).2
  rw [frames_to_segments_cons]
  refine ⟨mergeLoop_ne_nil _ _ _ _,
    mergeLoop_sorted _ _ _ _ hal hm0.1 hmr', ?_⟩
  intro x
  rw [mergeLoop_cover _ _ _ _ hal hm0.1 hm0.2 hmr' x, timesCover_cons]
  have hsnd : (ls.zip ts).map Prod.snd = ts :=
    List.map_snd_zip ls ts (le_of_eq hlen.symm)
  rw [hsnd]

/-- C2 witness: two overlapping default-configuration frames with
distinct labels. -/
theorem segments_sorted_union_witness :
    ([1] : List ℕ).length = ([((3 : ℚ)/4, (9 : ℚ)/4)] : List (ℚ × ℚ)).length ∧
    Aligned ((0 : ℚ), (3 : ℚ)/2).1 ((0 : ℚ), (3 : ℚ)/2).2
      (([1] : List ℕ).zip [((3 : ℚ)/4, (9 : ℚ)/4)]) ∧
    (milli ((0 : ℚ), (3 : ℚ)/2).1 ∧ milli ((0 : ℚ), (3 : ℚ)/2).2) ∧
    (∀ t ∈ ([((3 : ℚ)/4, (9 : ℚ)/4)] : List (ℚ × ℚ)), milli t.1 ∧ milli t.2) ∧
    (frames_to_segments [0, 1] [((0 : ℚ), (3 : ℚ)/2), ((3 : ℚ)/4, (9 : ℚ)/4)] ≠ [] ∧
     List.Chain' (fun a b : Segment ℕ => a.start ≤ b.start)
       (frames_to_segments [0, 1] [((0 : ℚ), (3 : ℚ)/2), ((3 : ℚ)/4, (9 : ℚ)/4)]) ∧
     ∀ x : ℚ, SegsCover
         (frames_to_segments [0, 1] [((0 : ℚ), (3 : ℚ)/2), ((3 : ℚ)/4, (9 : ℚ)/4)]) x ↔
       TimesCover [((0 : ℚ), (3 : ℚ)/2), ((3 : ℚ)/4, (9 : ℚ)/4)] x) := by
  refine ⟨rfl, ?_, ?_, ?_, ?_⟩
  · simp only [List.zip_cons_cons, List.zip_nil_right, Aligned]
    norm_num
  · exact ⟨milli_of_eq 0 (by norm_num), milli_of_eq 1500 (by norm_num)⟩
  · intro t ht
    simp only [List.mem_singleton] at ht
    subst ht
    exact ⟨milli_of_eq 750 (by norm_num), milli_of_eq 2250 (by norm_num)⟩
  · exact segments_sorted_union 0 [1] ((0 : ℚ), (3 : ℚ)/2) [((3 : ℚ)/4, (9 : ℚ)/4)]
      rfl
      (by simp only [List.zip_cons_cons, List.zip_nil_right, Aligned]; norm_num)
      ⟨milli_of_eq 0 (by norm_num), milli_of_eq 1500 (by norm_num)⟩
      (by intro t ht
          simp only [List.mem_singleton] at ht
          subst ht
          exact ⟨milli_of_eq 750 (by norm_num), milli_of_eq 2250 (by norm_num)⟩)

/-- C6: for N ≥ 1 embeddings and maxSpeakers K ≥ 1, the clusterer uses
cluster count `min(K, N)` floored at 1; the set of distinct labels has
cardinality at most `min(K, N)`, and exactly 1 when N < 2 or when the
cluster count is 1 — in which case every frame gets label 0 without
running clustering. -/
theorem cluster_labels_card (embs : List (List ℚ)) (K : ℤ)
    (hK : 1 ≤ K) (hN : 1 ≤ embs.length) :
    n_clusters K embs.length = max 1 (min K (embs.length : ℤ)) ∧
    ((cluster_labels embs K).toFinset.card : ℤ) ≤ min K (embs.length : ℤ) ∧
    ((embs.length < 2 ∨ n_clusters K embs.length = 1) →
      (cluster_labels embs K).toFinset.card = 1) ∧
    (n_clusters K embs.length = 1 →
      cluster_labels embs K = List.replicate embs.length 0) := by
  have hN1 : (1 : ℤ) ≤ (embs.length : ℤ) := by exact_mod_cast hN
  have h1 : (1 : ℤ) ≤ min K (embs.length : ℤ) := le_min hK hN1
  have hnc : n_clusters K embs.length = min K (embs.length : ℤ) := by
    simp only [n_clusters]
    rw [if_neg (not_lt.mpr h1)]
  have hrep : (List.replicate embs.length (0 : ℕ)).toFinset.card = 1 := by
    rw [List.toFinset_replicate_of_ne_zero (by omega)]
    rfl
  refine ⟨by rw [hnc, max_eq_right h1], ?_, ?_, fun h => cluster_labels_one h⟩
  · by_cases hone : n_clusters K embs.length = 1
    · rw [cluster_labels_one hone, hrep]
      exact_mod_cast h1
    · have hk2 : 2 ≤ n_clusters K embs.length := by
        rw [hnc]
        rw [hnc] at hone
        omega
      have hkn : n_clusters K embs.length ≤ (embs.length : ℤ) := by
        rw [hnc]
        exact min_le_right _ _
      have hcl : cluster_labels embs K =
          agglomLabels (cosMatrix embs) embs.length (n_clusters K embs.length).toNat := by
        simp only [cluster_labels]
        rw [if_neg hone]
      rw [hcl, ← hnc]
      have hlt := agglomLabels_lt (cosMatrix embs) embs.length
        (n_clusters K embs.length).toNat (by omega) (by omega)
      have hsub : (agglomLabels (cosMatrix embs) embs.length
          (n_clusters K embs.length).toNat).toFinset ⊆
          Finset.range (n_clusters K embs.length).toNat := by
        intro x hx
        rw [List.mem_toFinset] at hx
        rw [Finset.mem_range]
        exact hlt x hx
      have hcard := Finset.card_le_card hsub
      rw [Finset.card_range] at hcard
      calc ((agglomLabels (cosMatrix embs) embs.length
            (n_clusters K embs.length).toNat).toFinset.card : ℤ)
          ≤ ((n_clusters K embs.length).toNat : ℤ) := by exact_mod_cast hcard
        _ = n_clusters K embs.length := by omega
  · intro h
    rcases h with h | h
    · have : embs.length = 1 := by omega
      have hone : n_clusters K embs.length = 1 := by
        rw [hnc, this]
        omega
      rw [cluster_labels_one hone, hrep]
    · rw [cluster_labels_one h, hrep]

/-- C6 witness: a single embedding with the default `max_speakers = 6`. -/
theorem cluster_labels_card_witness :
    (1 : ℤ) ≤ 6 ∧ 1 ≤ ([[(1 : ℚ), 0]] : List (List ℚ)).length ∧
    (n_clusters 6 ([[(1 : ℚ), 0]] : List (List ℚ)).length =
        max 1 (min 6 (([[(1 : ℚ), 0]] : List (List ℚ)).length : ℤ)) ∧
      ((cluster_labels [[(1 : ℚ), 0]] 6).toFinset.card : ℤ) ≤
        min 6 (([[(1 : ℚ), 0]] : List (List ℚ)).length : ℤ) ∧
      ((([[(1 : ℚ), 0]] : List (List ℚ)).length < 2 ∨
          n_clusters 6 ([[(1 : ℚ), 0]] : List (List ℚ)).length = 1) →
        (cluster_labels [[(1 : ℚ), 0]] 6).toFinset.card = 1) ∧
      (n_clusters 6 ([[(1 : ℚ), 0]] : List (List ℚ)).length = 1 →
        cluster_labels [[(1 : ℚ), 0]] 6 =
          List.replicate ([[(1 : ℚ), 0]] : List (List ℚ)).length 0)) :=
  ⟨by norm_num, by norm_num,
   cluster_labels_card [[(1 : ℚ), 0]] 6 (by norm_num) (by norm_num)⟩

/-! ### Evaluating the clusterer on the 4-point scenario -/

theorem selectMin_nil (f : ℕ × ℕ → ℝ) (b : ℕ × ℕ) : selectMin f b [] = b := rfl

theorem selectMin_cons (f : ℕ × ℕ → ℝ) (b q : ℕ × ℕ) (ps : List (ℕ × ℕ)) :
    selectMin f b (q :: ps) = selectMin f (if f q < f b then q else b) ps := rfl

theorem mergeSteps_succ (d : ℕ → ℕ → ℝ) (k fuel : ℕ) (cs : List (List ℕ)) :
    mergeSteps d k (fuel + 1) cs =
      if cs.length ≤ k then cs else mergeSteps d k fuel (mergeOnce d cs) := rfl

theorem linkage_single (d : ℕ → ℕ → ℝ) (a b : ℕ) :
    linkage d [a] [b] = d a b := by
  simp [linkage]

theorem linkage_single_pair (d : ℕ → ℕ → ℝ) (a b c : ℕ) :
    linkage d [a] [b, c] = (d a b + d a c) / 2 := by
  simp [linkage]

theorem linkage_pair_single (d : ℕ → ℕ → ℝ) (a b c : ℕ) :
    linkage d [a, b] [c] = (d a c + d b c) / 2 := by
  simp [linkage]

/-- First scan over the six candidate pairs of four singleton clusters:
the pair `(2, 3)` is selected when it is the unique minimum. -/
theorem selectMin_eval4 (f : ℕ × ℕ → ℝ)
    (h1 : ¬ f (0, 2) < f (0, 1)) (h2 : ¬ f (0, 3) < f (0, 1))
    (h3 : ¬ f (1, 2) < f (0, 1)) (h4 : ¬ f (1, 3) < f (0, 1))
    (h5 : f (2, 3) < f (0, 1)) :
    selectMin f (0, 1) [(0, 2), (0, 3), (1, 2), (1, 3), (2, 3)] = (2, 3) := by
  rw [selectMin_cons, if_neg h1, selectMin_cons, if_neg h2, selectMin_cons,
    if_neg h3, selectMin_cons, if_neg h4, selectMin_cons, if_pos h5,
    selectMin_nil]

/-- Second scan over the three candidate pairs of `[[2,3],[0],[1]]`. -/
theorem selectMin_eval3 (f : ℕ × ℕ → ℝ)
    (h1 : f (0, 2) < f (0, 1)) (h2 : f (1, 2) < f (0, 2)) :
    selectMin f (0, 1) [(0, 2), (1, 2)] = (1, 2) := by
  rw [selectMin_cons, if_pos h1, selectMin_cons, if_pos h2, selectMin_nil]

/-- Generic run of the modelled agglomerative clusterer on four points
down to two clusters: when `d(2,3)` is the strict minimum, the four
cross distances all dominate `d(0,1)`, and after the first merge the
pair `{0},{1}` is strictly closer than either cluster is to `{2,3}`,
the result groups `{0,1}` and `{2,3}`. -/
theorem agglomLabels_four (d : ℕ → ℕ → ℝ)
    (h02 : ¬ d 0 2 < d 0 1) (h03 : ¬ d 0 3 < d 0 1)
    (h12 : ¬ d 1 2 < d 0 1) (h13 : ¬ d 1 3 < d 0 1)
    (h23 : d 2 3 < d 0 1)
    (hA : (d 2 1 + d 3 1) / 2 < (d 2 0 + d 3 0) / 2)
    (hB : d 0 1 < (d 2 1 + d 3 1) / 2) :
    agglomLabels d 4 2 = [0, 0, 1, 1] := by
  have e1 : argminPair d [[0], [1], [2], [3]] =
      some (selectMin
        (fun q => linkage d (([[0], [1], [2], [3]] : List (List ℕ)).getD q.1 [])
          (([[0], [1], [2], [3]] : List (List ℕ)).getD q.2 []))
        (0, 1) [(0, 2), (0, 3), (1, 2), (1, 3), (2, 3)]) := rfl
  have harg1 : argminPair d [[0], [1], [2], [3]] = some (2, 3) := by
    rw [e1]
    refine congrArg some (selectMin_eval4 _ ?_ ?_ ?_ ?_ ?_)
    · show ¬ linkage d [0] [2] < linkage d [0] [1]
      rw [linkage_single, linkage_single]
      exact h02
    · show ¬ linkage d [0] [3] < linkage d [0] [1]
      rw [linkage_single, linkage_single]
      exact h03
    · show ¬ linkage d [1] [2] < linkage d [0] [1]
      rw [linkage_single, linkage_single]
      exact h12
    · show ¬ linkage d [1] [3] < linkage d [0] [1]
      rw [linkage_single, linkage_single]
      exact h13
    · show linkage d [2] [3] < linkage d [0] [1]
      rw [linkage_single, linkage_single]
      exact h23
  have m1 : mergeOnce d [[0], [1], [2], [3]] = [[2, 3], [0], [1]] := by
    unfold mergeOnce
    rw [harg1]
    rfl
  have e2 : argminPair d [[2, 3], [0], [1]] =
      some (selectMin
        (fun q => linkage d (([[2, 3], [0], [1]] : List (List ℕ)).getD q.1 [])
          (([[2, 3], [0], [1]] : List (List ℕ)).getD q.2 []))
        (0, 1) [(0, 2), (1, 2)]) := rfl
  have harg2 : argminPair d [[2, 3], [0], [1]] = some (1, 2) := by
    rw [e2]
    refine congrArg some (selectMin_eval3 _ ?_ ?_)
    · show linkage d [2, 3] [1] < linkage d [2, 3] [0]
      rw [linkage_pair_single, linkage_pair_single]
      exact hA
    · show linkage d [0] [1] < linkage d [2, 3] [1]
      rw [linkage_single, linkage_pair_single]
      exact hB
  have m2 : mergeOnce d [[2, 3], [0], [1]] = [[0, 1], [2, 3]] := by
    unfold mergeOnce
    rw [harg2]
    rfl
  have hsteps : mergeSteps d 2 4 [[0], [1], [2], [3]] = [[0, 1], [2, 3]] := by
    rw [show (4 : ℕ) = 3 + 1 from rfl, mergeSteps_succ,
      if_neg (by norm_num), m1,
      show (3 : ℕ) = 2 + 1 from rfl, mergeSteps_succ,
      if_neg (by norm_num), m2,
      show (2 : ℕ) = 1 + 1 from rfl, mergeSteps_succ,
      if_pos (by norm_num)]
  unfold agglomLabels
  rw [show (List.range 4).map (fun i => ([i] : List ℕ)) = [[0], [1], [2], [3]]
    from rfl]
  rw [hsteps]
  decide

/-- C9: on the four scenario embeddings `[[1,0],[1,0.01],[0,1],[0,1.01]]`
with `maxSpeakers = 2`, the modelled cosine/average-linkage clusterer
groups frames `{0,1}` and `{2,3}` (labels `[0,0,1,1]`), and the merger
turns the four default-configuration frame ranges into exactly two
segments with distinct labels, each spanning two adjacent frames. -/
theorem scenario_two_clusters :
    cluster_labels [[(1 : ℚ), 0], [1, 1/100], [0, 1], [0, 101/100]] 2 =
      [0, 0, 1, 1] ∧
    frames_to_segments [0, 0, 1, 1]
        [((0 : ℚ), 3/2), (3/4, 9/4), (3/2, 3), (9/4, 15/4)] =
      [⟨0, 9/4, 0⟩, ⟨3/2, 15/4, 1⟩] ∧
    (0 : ℕ) ≠ 1 := by
  refine ⟨?_, ?_, by norm_num⟩
  · simp only [cluster_labels]
    rw [show ([[(1 : ℚ), 0], [1, 1/100], [0, 1], [0, 101/100]] :
      List (List ℚ)).length = 4 from rfl]
    rw [show n_clusters 2 4 = 2 from by norm_num [n_clusters],
      if_neg (by norm_num), show ((2 : ℤ)).toNat = 2 from rfl]
    set s : ℝ := Real.sqrt ((10001 : ℝ)/10000) with hs
    have hs2 : s^2 = 10001/10000 := Real.sq_sqrt (by norm_num)
    have hs0 : 0 < s := Real.sqrt_pos.mpr (by norm_num)
    have hs1 : 1 < s := by nlinarith
    have hsqrt3 : Real.sqrt ((10201 : ℝ)/10000) = 101/100 := by
      rw [show (10201 : ℝ)/10000 = ((101 : ℝ)/100)^2 by norm_num]
      exact Real.sqrt_sq (by norm_num)
    have d01 : cosMatrix [[(1 : ℚ), 0], [1, 1/100], [0, 1], [0, 101/100]] 0 1 =
        1 - 1/s := by
      show cosDist [(1 : ℚ), 0] [1, 1/100] = 1 - 1/s
      unfold cosDist
      rw [show dotQ [(1 : ℚ), 0] [1, 1/100] = 1 from by norm_num [dotQ],
        show dotQ [(1 : ℚ), 0] [(1 : ℚ), 0] = 1 from by norm_num [dotQ],
        show dotQ [(1 : ℚ), 1/100] [(1 : ℚ), 1/100] = 10001/10000 from by
          norm_num [dotQ]]
      push_cast
      rw [Real.sqrt_one, ← hs]
      ring
    have d02 : cosMatrix [[(1 : ℚ), 0], [1, 1/100], [0, 1], [0, 101/100]] 0 2 =
        1 := by
      show cosDist [(1 : ℚ), 0] [0, 1] = 1
      unfold cosDist
      rw [show dotQ [(1 : ℚ), 0] [0, 1] = 0 from by norm_num [dotQ]]
      push_cast
      ring
    have d03 : cosMatrix [[(1 : ℚ), 0], [1, 1/100], [0, 1], [0, 101/100]] 0 3 =
        1 := by
      show cosDist [(1 : ℚ), 0] [0, 101/100] = 1
      unfold cosDist
      rw [show dotQ [(1 : ℚ), 0] [0, 101/100] = 0 from by norm_num [dotQ]]
      push_cast
      ring
    have d20 : cosMatrix [[(1 : ℚ), 0], [1, 1/100], [0, 1], [0, 101/100]] 2 0 =
        1 := by
      show cosDist [(0 : ℚ), 1] [1, 0] = 1
      unfold cosDist
      rw [show dotQ [(0 : ℚ), 1] [1, 0] = 0 from by norm_num [dotQ]]
      push_cast
      ring
    have d30 : cosMatrix [[(1 : ℚ), 0], [1, 1/100], [0, 1], [0, 101/100]] 3 0 =
        1 := by
      show cosDist [(0 : ℚ), 101/100] [1, 0] = 1
      unfold cosDist
      rw [show dotQ [(0 : ℚ), 101/100] [1, 0] = 0 from by norm_num [dotQ]]
      push_cast
      ring
    have d12 : cosMatrix [[(1 : ℚ), 0], [1, 1/100], [0, 1], [0, 101/100]] 1 2 =
        1 - (1/100)/s := by
      show cosDist [(1 : ℚ), 1/100] [0, 1] = 1 - (1/100)/s
      unfold cosDist
      rw [show dotQ [(1 : ℚ), 1/100] [0, 1] = 1/100 from by norm_num [dotQ],
        show dotQ [(1 : ℚ), 1/100] [(1 : ℚ), 1/100] = 10001/10000 from by
          norm_num [dotQ],
        show dotQ [(0 : ℚ), 1] [0, 1] = 1 from by norm_num [dotQ]]
      push_cast
      rw [Real.sqrt_one, ← hs]
      ring
    have d13 : cosMatrix [[(1 : ℚ), 0], [1, 1/100], [0, 1], [0, 101/100]] 1 3 =
        1 - (1/100)/s := by
      show cosDist [(1 : ℚ), 1/100] [0, 101/100] = 1 - (1/100)/s
      unfold cosDist
      rw [show dotQ [(1 : ℚ), 1/100] [0, 101/100] = 101/10000 from by
          norm_num [dotQ],
        show dotQ [(1 : ℚ), 1/100] [(1 : ℚ), 1/100] = 10001/10000 from by
          norm_num [dotQ],
        show dotQ [(0 : ℚ), 101/100] [0, 101/100] = 10201/10000 from by
          norm_num [dotQ]]
      push_cast
      rw [hsqrt3, ← hs]
      field_simp
      ring
    have d21 : cosMatrix [[(1 : ℚ), 0], [1, 1/100], [0, 1], [0, 101/100]] 2 1 =
        1 - (1/100)/s := by
      show cosDist [(0 : ℚ), 1] [1, 1/100] = 1 - (1/100)/s
      unfold cosDist
      rw [show dotQ [(0 : ℚ), 1] [1, 1/100] = 1/100 from by norm_num [dotQ],
        show dotQ [(0 : ℚ), 1] [0, 1] = 1 from by norm_num [dotQ],
        show dotQ [(1 : ℚ), 1/100] [(1 : ℚ), 1/100] = 10001/10000 from by
          norm_num [dotQ]]
      push_cast
      rw [Real.sqrt_one, ← hs]
      ring
    have d31 : cosMatrix [[(1 : ℚ), 0], [1, 1/100], [0, 1], [0, 101/100]] 3 1 =
        1 - (1/100)/s := by
      show cosDist [(0 : ℚ), 101/100] [1, 1/100] = 1 - (1/100)/s
      unfold cosDist
      rw [show dotQ [(0 : ℚ), 101/100] [1, 1/100] = 101/10000 from by
          norm_num [dotQ],
        show dotQ [(0 : ℚ), 101/100] [0, 101/100] = 10201/10000 from by
          norm_num [dotQ],
        show dotQ [(1 : ℚ), 1/100] [(1 : ℚ), 1/100] = 10001/10000 from by
          norm_num [dotQ]]
      push_cast
      rw [hsqrt3, ← hs]
      field_simp
      ring
    have d23 : cosMatrix [[(1 : ℚ), 0], [1, 1/100], [0, 1], [0, 101/100]] 2 3 =
        0 := by
      show cosDist [(0 : ℚ), 1] [0, 101/100] = 0
      unfold cosDist
      rw [show dotQ [(0 : ℚ), 1] [0, 101/100] = 101/100 from by norm_num [dotQ],
        show dotQ [(0 : ℚ), 1] [0, 1] = 1 from by norm_num [dotQ],
        show dotQ [(0 : ℚ), 101/100] [0, 101/100] = 10201/10000 from by
          norm_num [dotQ]]
      push_cast
      rw [Real.sqrt_one, hsqrt3]
      norm_num
    have h1s : (1 : ℝ)/s < 1 := (div_lt_one hs0).mpr hs1
    have h1s0 : (0 : ℝ) < 1/s := by positivity
    have hc0 : (0 : ℝ) < (1/100)/s := by positivity
    have hcs : (1/100 : ℝ)/s < 1/s := by
      gcongr
      norm_num
    apply agglomLabels_four
    · rw [d02, d01, not_lt]
      linarith
    · rw [d03, d01, not_lt]
      linarith
    · rw [d12, d01, not_lt]
      linarith
    · rw [d13, d01, not_lt]
      linarith
    · rw [d23, d01]
      linarith
    · rw [d21, d31, d20, d30]
      rw [show ((1 - (1/100 : ℝ)/s) + (1 - (1/100)/s))/2 = 1 - (1/100)/s by ring,
        show ((1 : ℝ) + 1)/2 = 1 by norm_num]
      linarith
    · rw [d01, d21, d31]
      rw [show ((1 - (1/100 : ℝ)/s) + (1 - (1/100)/s))/2 = 1 - (1/100)/s by ring]
      linarith
  · have r0 : round3 0 = 0 := round3_of_milli (milli_of_eq 0 (by norm_num))
    have r94 : round3 (9/4) = 9/4 := round3_of_milli (milli_of_eq 2250 (by norm_num))
    have r32 : round3 (3/2) = 3/2 := round3_of_milli (milli_of_eq 1500 (by norm_num))
    have r154 : round3 (15/4) = 15/4 := round3_of_milli (milli_of_eq 3750 (by norm_num))
    simp [frames_to_segments, mergeLoop, r0, r94, r32, r154]
